import Mathlib

/-!
Shallow embedding of the ve-it-tips-webapp client logic (CSV parser, step
parser, checklist state machine, fetch retry loop, recently-viewed list)
together with proofs of the specification claims about it.

The JavaScript sources embedded here are `script.js`, `steps.js` and the
steps-page script (whose file name is unknown); the CSV row scanner is
textually identical in all three.
-/

set_option maxRecDepth 4000

/-! ## Definitions -/

/-- Whitespace as matched by JavaScript `\s` and `String.prototype.trim`. -/
def isJsSpace (c : Char) : Bool :=
  c = ' ' || c = '\t' || c = '\n' || c = '\r' || c = '\x0b' || c = '\x0c' ||
  c = ' ' || c = ' ' || (' ' ≤ c && c ≤ ' ') ||
  c = ' ' || c = ' ' || c = ' ' || c = ' ' ||
  c = '　' || c = '﻿'

/-- JavaScript trim: drop leading and trailing JS whitespace. -/
def jsTrim (cs : List Char) : List Char :=
  ((cs.dropWhile isJsSpace).reverse.dropWhile isJsSpace).reverse

/-- Trim lifted to `String`. -/
def jsTrimS (s : String) : String := String.mk (jsTrim s.data)

/-- Push the finished row, but only when it has at least one field whose
trimmed content is nonempty (`currentRow.some(field => field.trim() !== '')`). -/
def csvPushRow (row : List (List Char)) (rows : List (List (List Char))) :
    List (List (List Char)) :=
  if 0 < row.length ∧ row.any (fun f => !(jsTrim f).isEmpty) then rows ++ [row]
  else rows

/-- End of a row: append the current field, then push the row if retained. -/
def csvFlushRow (field : List Char) (row : List (List Char))
    (rows : List (List (List Char))) : List (List (List Char)) :=
  csvPushRow (row ++ [field]) rows

/-- End of input: `if (currentField !== '' || currentRow.length > 0)` flush. -/
def csvFlushEnd (field : List Char) (row : List (List Char))
    (rows : List (List (List Char))) : List (List (List Char)) :=
  if field ≠ [] ∨ row ≠ [] then csvFlushRow field row rows else rows

/-- The character-by-character CSV scan of `parseCSVRows`: doubled quotes in a
quoted field become one literal quote, a lone quote toggles the in-quotes
flag, and outside quotes `,` ends a field while `\n`, `\r\n` or `\r` ends a
row. -/
def csvAux : List Char → Bool → List Char → List (List Char) →
    List (List (List Char)) → List (List (List Char))
  | [], _, field, row, rows => csvFlushEnd field row rows
  | '"' :: '"' :: rest, true, field, row, rows =>
    csvAux rest true (field ++ ['"']) row rows
  | '"' :: rest, inQ, field, row, rows => csvAux rest (!inQ) field row rows
  | '\r' :: '\n' :: rest, false, field, row, rows =>
    csvAux rest false [] [] (csvFlushRow field row rows)
  | c :: rest, inQ, field, row, rows =>
    if inQ then csvAux rest inQ (field ++ [c]) row rows
    else if c = ',' then csvAux rest inQ [] (row ++ [field]) rows
    else if c = '\n' then csvAux rest inQ [] [] (csvFlushRow field row rows)
    else if c = '\r' then csvAux rest inQ [] [] (csvFlushRow field row rows)
    else csvAux rest inQ (field ++ [c]) row rows

/-- Remove a leading byte-order mark (`charCodeAt(0) === 0xFEFF`). -/
def stripBOM (cs : List Char) : List Char :=
  match cs with
  | c :: rest => if c = '﻿' then rest else c :: rest
  | [] => []

/-- Function `parseCSVRows` from the sources: strip the BOM, then scan. -/
def parseCSVRows (csvText : String) : List (List String) :=
  (csvAux (stripBOM csvText.data) false [] [] []).map (fun row => row.map String.mk)

/-- Function `parseCSV`: first retained row gives the trimmed headers; a data row is
converted to a header-keyed mapping only when its field count equals the
header count, and is skipped otherwise. -/
def parseCSV (csvText : String) : List (List (String × String)) :=
  if csvText = "" ∨ jsTrimS csvText = "" then []
  else
    match parseCSVRows csvText with
    | [] => []
    | headerRow :: dataRows =>
      let headers := headerRow.map jsTrimS
      dataRows.filterMap (fun values =>
        if values.length = headers.length then
          some ((headers.zip values).map
            (fun hv => (hv.1, if hv.2 ≠ "" then jsTrimS hv.2 else "")))
        else none)

/-- CSV-escape a field body: each quote is doubled. -/
def escapeQuotes : List Char → List Char
  | [] => []
  | c :: t => if c = '"' then '"' :: '"' :: escapeQuotes t else c :: escapeQuotes t

/-- A quoted CSV field: the escaped body wrapped in quotes. -/
def quoteField (f : List Char) : List Char := '"' :: escapeQuotes f ++ ['"']

/-- One CSV line of quoted fields, separated by commas. -/
def encodeFields : List (List Char) → List Char
  | [] => []
  | [f] => quoteField f
  | f :: rest => quoteField f ++ ',' :: encodeFields rest

/-- Length fitting done by `loadChecklistState`: truncate a longer stored
array, right-pad a shorter one with `false`. -/
def fitLength (arr : List Bool) (totalSteps : Nat) : List Bool :=
  if totalSteps < arr.length then arr.take totalSteps
  else if arr.length < totalSteps then
    arr ++ List.replicate (totalSteps - arr.length) false
  else arr

/-- The scan inside `normalizeSequentialState`: before the first `false` the
stored value is kept; from the first `false` on, every entry is forced to
`false`. -/
def normAux : List Bool → Bool → List Bool
  | [], _ => []
  | _ :: t, true => false :: normAux t true
  | b :: t, false => b :: normAux t (!b)

/-- Function `normalizeSequentialState` starts its scan with the found-flag down. -/
def normalizeSequentialState (l : List Bool) : List Bool := normAux l false

/-- Force entries at positions `idx` and later to `false` (the user's uncheck
of `idx` plus the cascade over all later checkboxes). -/
def setFalseFrom : List Bool → Nat → List Bool
  | [], _ => []
  | _ :: t, 0 => false :: setFalseFrom t 0
  | b :: t, n + 1 => b :: setFalseFrom t n

/-- The message shown when a check is attempted out of order. -/
def completeMsg : String := "Complete previous steps first."

/-- One checkbox `change` event at index `idx` in checklist mode, acting on
the pre-event state: checking is accepted only when every earlier step is
checked (otherwise the box is reverted and the message shown); unchecking
cascades `false` onto every later step. -/
def toggleStep (state : List Bool) (idx : Nat) : List Bool × Option String :=
  match state[idx]? with
  | some true => (setFalseFrom state idx, none)
  | some false =>
    if (state.take idx).all (fun b => b) then (state.set idx true, none)
    else (state, some completeMsg)
  | none => (state, none)

/-- The checklist array in effect after enabling checklist mode on a stored
array and performing a sequence of check/uncheck actions. -/
def runChecklist (stored : List Bool) (totalSteps : Nat) (acts : List Nat) :
    List Bool :=
  acts.foldl (fun s i => (toggleStep s i).1)
    (normalizeSequentialState (fitLength stored totalSteps))

/-- A checklist array whose `true` entries form a contiguous block from
index 0: nothing `true` may follow anything `false`. -/
def NoGap (l : List Bool) : Prop :=
  ∀ i j : Nat, i ≤ j → l[j]? = some true → l[i]? = some true

/-- Constant `maxRetries` from `fetchCSVData`. -/
def maxRetries : Nat := 3

/-- The retry loop of `fetchCSVData`, abstracted over the per-attempt outcome
(network failure, non-2xx status, empty body, or a parsed result).  Returns
the number of the attempt on which the loop stopped, the backoff delays slept
between attempts (`300 * 2 ^ (attempt - 1)` after failed attempt `attempt`),
and the final result: the third consecutive failure is surfaced to the caller
with no further retry. -/
def fetchGo {α : Type} (outcomes : Nat → Except String α) (attempt : Nat)
    (delays : List Nat) : Nat × List Nat × Except String α :=
  match outcomes attempt with
  | Except.ok v => (attempt, delays, Except.ok v)
  | Except.error e =>
    if attempt = maxRetries then (attempt, delays, Except.error e)
    else if h : maxRetries ≤ attempt then (attempt, delays, Except.error e)
    else fetchGo outcomes (attempt + 1) (delays ++ [300 * 2 ^ (attempt - 1)])
termination_by maxRetries - attempt
decreasing_by omega

/-- Function `fetchCSVData` starts the retry loop at attempt 1 with no delays slept. -/
def fetchCSVData {α : Type} (outcomes : Nat → Except String α) :
    Nat × List Nat × Except String α :=
  fetchGo outcomes 1 []

/-- One entry of the recently-viewed list: `{id, issue, viewedAt}`. -/
structure RecentEntry where
  id : String
  issue : String
  viewedAt : String
deriving DecidableEq

/-- Function `saveRecentlyViewed`: drop any entry with the viewed id, unshift the new
entry `{id, issue, viewedAt}` onto the front, keep only the first 10.  The
`viewedAt` timestamp (`new Date().toISOString()`) is a parameter. -/
def saveRecentlyViewed (prior : List RecentEntry) (tipId issue viewedAt : String) :
    List RecentEntry :=
  (⟨tipId, issue, viewedAt⟩ :: prior.filter (fun item => item.id != tipId)).take 10

/-- Split on newline exactly like `split(/\n/)` (keeps empty pieces). -/
def splitLines : List Char → List (List Char)
  | [] => [[]]
  | c :: t =>
    if c = '\n' then [] :: splitLines t
    else
      match splitLines t with
      | [] => [[c]]
      | l :: ls => (c :: l) :: ls

/-- Strip one leading numeric marker, `replace(/^\d+[\.\)]\s*/, '')`: one or
more digits, then `.` or `)`, then any following whitespace. -/
def stripNumMarker (cs : List Char) : List Char :=
  if (cs.takeWhile Char.isDigit).isEmpty then cs
  else
    match cs.dropWhile Char.isDigit with
    | '.' :: r => r.dropWhile isJsSpace
    | ')' :: r => r.dropWhile isJsSpace
    | _ => cs

/-- Strip one leading bullet marker from the character class `bullets`
followed by at least one whitespace character (`replace(/^[-*…]\s+/, '')`). -/
def stripBulletMarker (bullets : List Char) : List Char → List Char
  | [] => []
  | c :: rest =>
    if bullets.contains c then
      match rest with
      | d :: _ => if isJsSpace d then rest.dropWhile isJsSpace else c :: rest
      | [] => c :: rest
    else c :: rest

/-- Per-line cleaning of `parseSteps`: strip the numeric marker, then the
bullet marker, then trim. -/
def cleanStepWith (bullets : List Char) (cs : List Char) : List Char :=
  jsTrim (stripBulletMarker bullets (stripNumMarker cs))

/-- The step parser body, parameterized by the bullet character class (the
only difference between the three embedded copies): split on newlines, drop
blank lines, clean each line, drop lines that became empty. -/
def parseStepsCore (bullets : List Char) (s : String) : List String :=
  if s = "" then []
  else
    ((((splitLines s.data).filter (fun l => !(jsTrim l).isEmpty)).map
      (fun l => cleanStepWith bullets l)).filter (fun l => !l.isEmpty)).map
      String.mk

/-- Function `parseSteps` from `script.js`: bullet class `-`, `*`, `•`. -/
def parseSteps (s : String) : List String := parseStepsCore ['-', '*', '•'] s

/-- Function `parseSteps` from `steps.js`, textually identical to the `script.js`
copy. -/
def parseStepsStepsJs (s : String) : List String :=
  parseStepsCore ['-', '*', '•'] s

/-- Function `parseSteps` from the steps-page script: its bullet character class reads
`[-*â€¢]` (a mis-decoded `•`), i.e. the three characters `â`, `€`, `¢` in
place of `•`. -/
def parseStepsPart000 (s : String) : List String :=
  parseStepsCore ['-', '*', 'â', '€', '¢'] s

/-- Join a step list back together with newlines (the reparse construction
of the idempotence claim). -/
def joinNl : List String → String
  | [] => ""
  | [s] => s
  | s :: rest => s ++ "\n" ++ joinNl rest

/-- The character-level form of `joinNl`. -/
def joinNlChars : List (List Char) → List Char
  | [] => []
  | [l] => l
  | l :: rest => l ++ '\n' :: joinNlChars rest

/-! ## Theorems -/

example : parseCSVRows "a,b\nc,d\n" = [["a", "b"], ["c", "d"]] := by decide

example : parseCSVRows "a,\"b,c\nd\"\"e\"\n" = [["a", "b,c\nd\"e"]] := by decide

example : parseCSVRows "a\r\nb\rc\n" = [["a"], ["b"], ["c"]] := by decide

example : parseCSVRows " , \n" = [] := by decide

example : parseCSV "ID,Cat\n1,Net\nbad\n" = [[("ID", "1"), ("Cat", "Net")]] := by
  decide

theorem csvAux_openQuote (rest : List Char) (f : List Char)
    (r : List (List Char)) (R : List (List (List Char))) :
    csvAux ('"' :: rest) false f r R = csvAux rest true f r R := by
  rw [csvAux.eq_3]
  · rfl
  · intro _ _ h
    exact Bool.noConfusion h

theorem csvAux_closeQuote (rest : List Char) (f : List Char)
    (r : List (List Char)) (R : List (List (List Char)))
    (h : ∀ t, rest ≠ '"' :: t) :
    csvAux ('"' :: rest) true f r R = csvAux rest false f r R := by
  rw [csvAux.eq_3]
  · rfl
  · intro t ht _
    exact h t ht

theorem csvAux_pairQuote (rest : List Char) (f : List Char)
    (r : List (List Char)) (R : List (List (List Char))) :
    csvAux ('"' :: '"' :: rest) true f r R = csvAux rest true (f ++ ['"']) r R :=
  csvAux.eq_2 f r R rest

theorem csvAux_inQuotes_char (c : Char) (hc : c ≠ '"') (rest : List Char)
    (f : List Char) (r : List (List Char)) (R : List (List (List Char))) :
    csvAux (c :: rest) true f r R = csvAux rest true (f ++ [c]) r R := by
  rcases rest with _ | ⟨d, rest⟩
  · rw [csvAux.eq_def]; simp [hc]
  · rw [csvAux.eq_def]; simp [hc]

theorem csvAux_comma (rest : List Char) (f : List Char)
    (r : List (List Char)) (R : List (List (List Char))) :
    csvAux (',' :: rest) false f r R = csvAux rest false [] (r ++ [f]) R := by
  rcases rest with _ | ⟨d, rest⟩
  · rw [csvAux.eq_def]; simp
  · rw [csvAux.eq_def]; simp

theorem csvAux_newline (rest : List Char) (f : List Char)
    (r : List (List Char)) (R : List (List (List Char))) :
    csvAux ('\n' :: rest) false f r R =
      csvAux rest false [] [] (csvFlushRow f r R) := by
  rcases rest with _ | ⟨d, rest⟩
  · rw [csvAux.eq_def]; simp
  · rw [csvAux.eq_def]; simp

theorem csvAux_escaped (s : List Char) : ∀ (rest f : List Char)
    (r : List (List Char)) (R : List (List (List Char))),
    csvAux (escapeQuotes s ++ rest) true f r R = csvAux rest true (f ++ s) r R := by
  induction s with
  | nil => intro rest f r R; simp [escapeQuotes]
  | cons c t ih =>
    intro rest f r R
    by_cases hc : c = '"'
    · subst hc
      have he : escapeQuotes ('"' :: t) ++ rest =
          '"' :: '"' :: (escapeQuotes t ++ rest) := by
        simp [escapeQuotes]
      rw [he, csvAux_pairQuote, ih]
      simp
    · have he : escapeQuotes (c :: t) ++ rest = c :: (escapeQuotes t ++ rest) := by
        simp [escapeQuotes, hc]
      rw [he, csvAux_inQuotes_char c hc, ih]
      simp

theorem csvAux_quotedField (s : List Char) (d : Char) (hd : d ≠ '"')
    (rest f : List Char) (r : List (List Char)) (R : List (List (List Char))) :
    csvAux (quoteField s ++ d :: rest) false f r R =
      csvAux (d :: rest) false (f ++ s) r R := by
  have he : quoteField s ++ d :: rest =
      '"' :: (escapeQuotes s ++ ('"' :: d :: rest)) := by
    simp [quoteField]
  rw [he, csvAux_openQuote, csvAux_escaped]
  rw [csvAux_closeQuote]
  intro t ht
  injection ht with h1 _
  exact hd h1

theorem csvAux_encodeRow : ∀ (fields : List (List Char)), fields ≠ [] →
    ∀ (rest : List Char) (row : List (List Char)) (R : List (List (List Char))),
    csvAux (encodeFields fields ++ '\n' :: rest) false [] row R =
      csvAux rest false [] [] (csvPushRow (row ++ fields) R) := by
  intro fields
  induction fields with
  | nil => intro hne; exact absurd rfl hne
  | cons f t ih =>
    intro _ rest row R
    cases t with
    | nil =>
      have he : encodeFields [f] ++ '\n' :: rest = quoteField f ++ '\n' :: rest := rfl
      rw [he, csvAux_quotedField f '\n' (by decide), csvAux_newline]
      simp [csvFlushRow]
    | cons g t2 =>
      have he : encodeFields (f :: g :: t2) ++ '\n' :: rest =
          quoteField f ++ ',' :: (encodeFields (g :: t2) ++ '\n' :: rest) := by
        simp [encodeFields]
      rw [he, csvAux_quotedField f ',' (by decide), csvAux_comma]
      rw [ih (by simp)]
      simp

/-- C1: the row scanner treats commas, newlines and doubled quotes inside a
quoted field as literal content.  Any row of field bodies, CSV-quoted (each
body wrapped in quotes with its quotes doubled), scans back to exactly that
row of literal field values — in particular a quoted field containing a
comma, an embedded newline and a doubled quote comes back as one field with
its literal content, the doubled quote contributing a single quote
character.  (The row must have one field of nonblank trimmed content, else
the scanner drops it as a blank line.) -/
theorem parseCSVRows_quoted_field_roundTrip (fields : List (List Char))
    (hne : fields ≠ [])
    (hkeep : fields.any (fun f => !(jsTrim f).isEmpty) = true) :
    parseCSVRows (String.mk (encodeFields fields ++ ['\n'])) =
      [fields.map String.mk] := by
  obtain ⟨f, t, rfl⟩ : ∃ f t, fields = f :: t := by
    cases fields with
    | nil => exact absurd rfl hne
    | cons f t => exact ⟨f, t, rfl⟩
  have hbom : stripBOM ((String.mk (encodeFields (f :: t) ++ ['\n'])).data) =
      encodeFields (f :: t) ++ ['\n'] := by
    cases t with
    | nil => simp [stripBOM, encodeFields, quoteField]
    | cons g t2 => simp [stripBOM, encodeFields, quoteField]
  rw [parseCSVRows, hbom]
  have hrun := csvAux_encodeRow (f :: t) (by simp) [] [] []
  have he : encodeFields (f :: t) ++ ['\n'] =
      encodeFields (f :: t) ++ '\n' :: [] := rfl
  rw [he, hrun, csvAux.eq_1]
  simp only [List.nil_append] at *
  simp [csvFlushEnd, csvPushRow, hkeep]

/-- Witness for C1 at a concrete field list: a field containing a comma, a
newline and a (doubled) quote round-trips literally. -/
theorem parseCSVRows_quoted_field_roundTrip_witness :
    parseCSVRows
        (String.mk (encodeFields [['a'], [',', 'b', '\n', 'c', '"', 'd']] ++ ['\n'])) =
      [["a", ",b\nc\"d"]] :=
  (parseCSVRows_quoted_field_roundTrip [['a'], [',', 'b', '\n', 'c', '"', 'd']]
    (by decide) (by decide)).trans (by decide)

/-- C2: every mapping in `parseCSV`'s output arises from a data row whose
field count equals the header row's field count, binds exactly the header
columns (never a subset), and carries that row's trimmed values; rows of any
other field count contribute nothing. -/
theorem parseCSV_row_field_count_exact (t : String) (obj : List (String × String))
    (h : obj ∈ parseCSV t) :
    ∃ headerRow dataRows values,
      parseCSVRows t = headerRow :: dataRows ∧
      values ∈ dataRows ∧
      values.length = headerRow.length ∧
      obj.map Prod.fst = headerRow.map jsTrimS ∧
      obj = ((headerRow.map jsTrimS).zip values).map
        (fun hv => (hv.1, if hv.2 ≠ "" then jsTrimS hv.2 else "")) := by
  by_cases h0 : t = "" ∨ jsTrimS t = ""
  · rw [parseCSV, if_pos h0] at h
    simp at h
  · rw [parseCSV, if_neg h0] at h
    rcases hrows : parseCSVRows t with _ | ⟨hr, dr⟩
    · rw [hrows] at h
      simp at h
    · rw [hrows] at h
      simp only [List.mem_filterMap] at h
      obtain ⟨values, hv, hsome⟩ := h
      by_cases hlen : values.length = (hr.map jsTrimS).length
      · rw [if_pos hlen] at hsome
        obtain rfl := Option.some.inj hsome
        refine ⟨hr, dr, values, rfl, hv, by simpa using hlen, ?_, rfl⟩
        have hle : (hr.map jsTrimS).length ≤ values.length := le_of_eq hlen.symm
        have hfst := List.map_fst_zip (hr.map jsTrimS) values hle
        calc (((hr.map jsTrimS).zip values).map
                (fun hv => (hv.1, if hv.2 ≠ "" then jsTrimS hv.2 else ""))).map Prod.fst
            = ((hr.map jsTrimS).zip values).map Prod.fst := by
              rw [List.map_map]; rfl
          _ = hr.map jsTrimS := hfst
      · rw [if_neg hlen] at hsome
        exact absurd hsome (by simp)

/-- Witness for C2: a concrete CSV whose second data row has the wrong field
count; the only output mapping comes from the matching row. -/
theorem parseCSV_row_field_count_exact_witness :
    ([("a", "x"), ("b", "y")] ∈ parseCSV "a,b\nx,y\nzz\n") ∧
    (∃ headerRow dataRows values,
      parseCSVRows "a,b\nx,y\nzz\n" = headerRow :: dataRows ∧
      values ∈ dataRows ∧
      values.length = headerRow.length ∧
      ([("a", "x"), ("b", "y")] : List (String × String)).map Prod.fst =
        headerRow.map jsTrimS ∧
      ([("a", "x"), ("b", "y")] : List (String × String)) =
        ((headerRow.map jsTrimS).zip values).map
          (fun hv => (hv.1, if hv.2 ≠ "" then jsTrimS hv.2 else ""))) :=
  ⟨by decide, parseCSV_row_field_count_exact "a,b\nx,y\nzz\n" _ (by decide)⟩

example : normalizeSequentialState [true, false, true, true] =
    [true, false, false, false] := by decide

example : fitLength [true, true] 4 = [true, true, false, false] := by decide

example : fitLength [true, true, true] 2 = [true, true] := by decide

example : toggleStep [true, false, false] 2 =
    ([true, false, false], some "Complete previous steps first.") := by decide

example : toggleStep [true, false, false] 1 = ([true, true, false], none) := by
  decide

example : toggleStep [true, true, true] 1 = ([true, false, false], none) := by
  decide

theorem setFalseFrom_getElem? : ∀ (l : List Bool) (n j : Nat),
    (setFalseFrom l n)[j]? =
      if j < n then l[j]? else (l[j]?).map (fun _ => false) := by
  intro l
  induction l with
  | nil => intro n j; simp [setFalseFrom]
  | cons b t ih =>
    intro n j
    cases n with
    | zero =>
      cases j with
      | zero => simp [setFalseFrom]
      | succ j => simp [setFalseFrom, ih]
    | succ n =>
      cases j with
      | zero => simp [setFalseFrom]
      | succ j => simpa [setFalseFrom, Nat.succ_lt_succ_iff] using ih n j

theorem setFalseFrom_length : ∀ (l : List Bool) (n : Nat),
    (setFalseFrom l n).length = l.length := by
  intro l
  induction l with
  | nil => intro n; rfl
  | cons b t ih => intro n; cases n <;> simp [setFalseFrom, ih]

theorem setFalseFrom_eq_append : ∀ (l : List Bool) (n : Nat),
    setFalseFrom l n = l.take n ++ List.replicate (l.length - n) false := by
  intro l
  induction l with
  | nil => intro n; simp [setFalseFrom]
  | cons b t ih =>
    intro n
    cases n with
    | zero => simp [setFalseFrom, ih 0, List.replicate_succ]
    | succ n => simp [setFalseFrom, ih n]

theorem normAux_found : ∀ (l : List Bool),
    normAux l true = List.replicate l.length false := by
  intro l
  induction l with
  | nil => rfl
  | cons b t ih => simp [normAux, ih, List.replicate_succ]

theorem noGap_nil : NoGap [] := by
  intro i j _ hj
  simp at hj

theorem noGap_cons_true {l : List Bool} (h : NoGap l) : NoGap (true :: l) := by
  intro i j hij hj
  cases i with
  | zero => simp
  | succ i =>
    cases j with
    | zero => exact absurd hij (by omega)
    | succ j =>
      simp only [List.getElem?_cons_succ] at hj ⊢
      exact h i j (by omega) hj

theorem noGap_of_all_false {l : List Bool} (h : ∀ j : Nat, l[j]? ≠ some true) :
    NoGap l := by
  intro i j _ hj
  exact absurd hj (h j)

theorem noGap_cons_false_replicate (n : Nat) :
    NoGap (false :: List.replicate n false) := by
  apply noGap_of_all_false
  intro j
  cases j with
  | zero => simp
  | succ j =>
    simp only [List.getElem?_cons_succ, List.getElem?_replicate]
    split <;> simp

theorem noGap_normalize (l : List Bool) : NoGap (normalizeSequentialState l) := by
  rw [normalizeSequentialState]
  induction l with
  | nil => exact noGap_nil
  | cons b t ih =>
    cases b
    · have he : normAux (false :: t) false =
          false :: List.replicate t.length false := by
        simp [normAux, normAux_found]
      rw [he]
      exact noGap_cons_false_replicate t.length
    · have he : normAux (true :: t) false = true :: normAux t false := by
        simp [normAux]
      rw [he]
      exact noGap_cons_true ih

theorem take_all_true {s : List Bool} {idx i : Nat}
    (hall : ((s.take idx).all (fun b => b)) = true) (hi : i < idx)
    (hlen : i < s.length) : s[i]? = some true := by
  have h1 : (s.take idx)[i]? = s[i]? := by rw [List.getElem?_take, if_pos hi]
  have h2 : s[i]? = some s[i] := List.getElem?_eq_getElem hlen
  have hmem : s[i] ∈ s.take idx := List.getElem?_mem (h1.trans h2)
  have := List.all_eq_true.mp hall _ hmem
  simp only [this] at h2 ⊢
  exact h2

theorem noGap_set_true {s : List Bool} (h : NoGap s) {idx : Nat}
    (hidx : idx < s.length)
    (hall : ((s.take idx).all (fun b => b)) = true) :
    NoGap (s.set idx true) := by
  intro i j hij hj
  by_cases hi : i = idx
  · subst hi
    exact List.getElem?_set_self hidx
  · rw [List.getElem?_set_ne (fun he => hi he.symm)]
    by_cases hj' : j = idx
    · subst hj'
      have hilt : i < j := lt_of_le_of_ne hij hi
      exact take_all_true hall hilt (lt_trans hilt hidx)
    · rw [List.getElem?_set_ne (fun he => hj' he.symm)] at hj
      exact h i j hij hj

theorem noGap_setFalseFrom {s : List Bool} (h : NoGap s) (idx : Nat) :
    NoGap (setFalseFrom s idx) := by
  intro i j hij hj
  rw [setFalseFrom_getElem?] at hj ⊢
  by_cases hjlt : j < idx
  · rw [if_pos hjlt] at hj
    rw [if_pos (lt_of_le_of_lt hij hjlt)]
    exact h i j hij hj
  · rw [if_neg hjlt] at hj
    rcases hsj : s[j]? with _ | b <;> rw [hsj] at hj <;> simp at hj

theorem noGap_toggleStep {s : List Bool} (h : NoGap s) (idx : Nat) :
    NoGap (toggleStep s idx).1 := by
  rcases hidx : s[idx]? with _ | b
  · have he : (toggleStep s idx).1 = s := by simp [toggleStep, hidx]
    rw [he]; exact h
  · cases b
    · by_cases hall : ((s.take idx).all (fun b => b)) = true
      · have he : (toggleStep s idx).1 = s.set idx true := by
          simp [toggleStep, hidx, hall]
        rw [he]
        exact noGap_set_true h (List.getElem?_eq_some.mp hidx).1 hall
      · have he : (toggleStep s idx).1 = s := by simp [toggleStep, hidx, hall]
        rw [he]; exact h
    · have he : (toggleStep s idx).1 = setFalseFrom s idx := by
        simp [toggleStep, hidx]
      rw [he]
      exact noGap_setFalseFrom h idx

/-- C3: for every stored boolean array and step count, the checklist array in
effect after enabling checklist mode (load, fit to length, normalize) and
after every subsequent sequence of check/uncheck actions has a contiguous
true block from index 0: no `true` entry follows a `false` entry. -/
theorem checklist_noGap_invariant (stored : List Bool) (totalSteps : Nat)
    (acts : List Nat) : NoGap (runChecklist stored totalSteps acts) := by
  rw [runChecklist]
  have h0 : NoGap (normalizeSequentialState (fitLength stored totalSteps)) :=
    noGap_normalize _
  revert h0
  generalize normalizeSequentialState (fitLength stored totalSteps) = init
  induction acts generalizing init with
  | nil => intro h0; simpa using h0
  | cons a t ih =>
    intro h0
    simp only [List.foldl_cons]
    exact ih _ (noGap_toggleStep h0 a)

/-- C4: attempting to check step `idx` while some earlier step `j` is still
unchecked is rejected: the checklist state is returned unchanged and the UI
message "Complete previous steps first." is produced. -/
theorem check_skip_rejected (state : List Bool) (idx j : Nat) (hj : j < idx)
    (hjf : state[j]? = some false) (hif : state[idx]? = some false) :
    toggleStep state idx = (state, some "Complete previous steps first.") := by
  have hnall : ¬ ((state.take idx).all (fun b => b)) = true := by
    intro hall
    have hjlen : j < state.length := (List.getElem?_eq_some.mp hjf).1
    rw [take_all_true hall hj hjlen] at hjf
    exact Bool.noConfusion (Option.some.inj hjf)
  simp [toggleStep, hif, hnall, completeMsg]

/-- Witness for C4: checking step 2 of `[true, false, false]` is rejected and
leaves the state unchanged. -/
theorem check_skip_rejected_witness :
    toggleStep [true, false, false] 2 =
      ([true, false, false], some "Complete previous steps first.") :=
  check_skip_rejected [true, false, false] 2 1 (by decide) (by decide) (by decide)

/-- C5: unchecking step `idx` (a currently checked step) keeps the length,
forces step `idx` and every later step to unchecked, leaves earlier steps
unchanged, and when the prior state was normalized (contiguous true block)
the completed count afterward equals `idx`. -/
theorem uncheck_cascades_count (state : List Bool) (idx : Nat)
    (h : state[idx]? = some true) :
    (toggleStep state idx).1.length = state.length ∧
    (∀ j : Nat, idx ≤ j → j < state.length →
      (toggleStep state idx).1[j]? = some false) ∧
    (∀ j : Nat, j < idx → (toggleStep state idx).1[j]? = state[j]?) ∧
    (NoGap state → (toggleStep state idx).1.count true = idx) := by
  have he : (toggleStep state idx).1 = setFalseFrom state idx := by
    simp [toggleStep, h]
  have hlen : idx < state.length := (List.getElem?_eq_some.mp h).1
  rw [he]
  refine ⟨setFalseFrom_length state idx, ?_, ?_, ?_⟩
  · intro j hij hjlen
    rw [setFalseFrom_getElem?, if_neg (by omega), List.getElem?_eq_getElem hjlen]
    rfl
  · intro j hjlt
    rw [setFalseFrom_getElem?, if_pos hjlt]
  · intro hng
    have htake : state.take idx = List.replicate idx true := by
      apply List.ext_getElem?
      intro i
      rw [List.getElem?_take, List.getElem?_replicate]
      by_cases hi : i < idx
      · rw [if_pos hi, if_pos hi]
        exact hng i idx (le_of_lt hi) h
      · rw [if_neg hi, if_neg hi]
    rw [setFalseFrom_eq_append, htake, List.count_append]
    simp [List.count_replicate]

/-- Witness for C5 at the normalized state `[true, true, true, false]` with
`idx = 1`: the cascade unchecks steps 1 and on, keeps step 0, and the
completed count equals 1. -/
theorem uncheck_cascades_count_witness :
    ((toggleStep [true, true, true, false] 1).1.length = 4) ∧
    ((toggleStep [true, true, true, false] 1).1.count true = 1) := by
  have h := uncheck_cascades_count [true, true, true, false] 1 (by decide)
  have hng : NoGap [true, true, true, false] := by
    intro i j hij hj
    have hj4 : j < 4 := by
      simpa using (List.getElem?_eq_some.mp hj).1
    have hi4 : i < 4 := lt_of_le_of_lt hij hj4
    interval_cases i <;> interval_cases j <;> simp_all
  exact ⟨h.1, h.2.2.2 hng⟩

theorem fetchGo_attempt_le {α : Type} (o : Nat → Except String α) :
    ∀ (n attempt : Nat), maxRetries - attempt = n → attempt ≤ maxRetries →
      ∀ (delays : List Nat), (fetchGo o attempt delays).1 ≤ maxRetries := by
  intro n
  induction n with
  | zero =>
    intro attempt hn hle delays
    have he : attempt = maxRetries := by omega
    subst he
    rw [fetchGo]
    cases ho : o maxRetries with
    | ok v => simp [ho]
    | error e => simp [ho]
  | succ n ih =>
    intro attempt hn hle delays
    rw [fetchGo]
    cases ho : o attempt with
    | ok v => simpa [ho] using hle
    | error e =>
      have he : attempt ≠ maxRetries := by omega
      have hnle : ¬ (maxRetries ≤ attempt) := by omega
      have hrec := ih (attempt + 1) (by omega) (by omega)
        (delays ++ [300 * 2 ^ (attempt - 1)])
      simpa [ho, he, hnle] using hrec

/-- C6 counterexample: when every attempt fails, only two backoff delays are
slept — 300 ms and 600 ms — because the third failed attempt is terminal; no
1200 ms delay ever occurs. -/
theorem fetch_delays_counterexample :
    (fetchCSVData
        (fun _ => (Except.error "network error" : Except String (List String)))).2.1
      = [300, 600] ∧ ([300, 600] : List Nat) ≠ [300, 600, 1200] := by
  constructor
  · rw [fetchCSVData, fetchGo]
    norm_num [maxRetries]
    rw [fetchGo]
    norm_num [maxRetries]
    rw [fetchGo]
    norm_num [maxRetries]
  · decide

/-- C6 (amended): the loop makes at most 3 fetch attempts for every outcome
oracle; and when attempts 1, 2 and 3 all fail, the caller receives the third
error as a terminal failure after exactly the backoff delays 300 ms and
600 ms (each computed as `300 * 2 ^ (attempt - 1)` after failed attempt 1
resp. 2), with no further retry and no delay after the terminal failure. -/
theorem fetch_three_failures_delays {α : Type} (o : Nat → Except String α)
    (e1 e2 e3 : String) (h1 : o 1 = Except.error e1) (h2 : o 2 = Except.error e2)
    (h3 : o 3 = Except.error e3) :
    fetchCSVData o = (3, [300, 600], Except.error e3) ∧
    (∀ (o' : Nat → Except String α), (fetchCSVData o').1 ≤ maxRetries) := by
  constructor
  · rw [fetchCSVData, fetchGo, h1]
    norm_num [maxRetries]
    rw [fetchGo, h2]
    norm_num [maxRetries]
    rw [fetchGo, h3]
    norm_num [maxRetries]
  · intro o'
    exact fetchGo_attempt_le o' (maxRetries - 1) 1 rfl (by norm_num [maxRetries]) []

/-- Witness for C6 at a concrete all-failing oracle. -/
theorem fetch_three_failures_delays_witness :
    fetchCSVData (fun _ => (Except.error "boom" : Except String (List String))) =
      (3, [300, 600], Except.error "boom") :=
  (fetch_three_failures_delays (fun _ => Except.error "boom") "boom" "boom" "boom"
    rfl rfl rfl).1

example :
    saveRecentlyViewed [⟨"b", "B", "t0"⟩, ⟨"a", "A", "t1"⟩] "a" "A2" "t2" =
      [⟨"a", "A2", "t2"⟩, ⟨"b", "B", "t0"⟩] := by decide

/-- C7: from a prior list with pairwise-distinct ids of length at most 10,
`saveRecentlyViewed` yields a list of length at most 10 with pairwise-distinct
ids whose first entry is the viewed item, the viewed id occurring exactly
once — re-viewing an id moves it to the front without duplicating it. -/
theorem saveRecentlyViewed_bounded_nodup_front (prior : List RecentEntry)
    (tipId issue viewedAt : String)
    (hnodup : (prior.map RecentEntry.id).Nodup) (_hlen : prior.length ≤ 10) :
    (saveRecentlyViewed prior tipId issue viewedAt).length ≤ 10 ∧
    ((saveRecentlyViewed prior tipId issue viewedAt).map RecentEntry.id).Nodup ∧
    (saveRecentlyViewed prior tipId issue viewedAt).head? =
      some ⟨tipId, issue, viewedAt⟩ ∧
    ((saveRecentlyViewed prior tipId issue viewedAt).map RecentEntry.id).count
      tipId = 1 := by
  have hfsub : List.Sublist (prior.filter (fun item => item.id != tipId)) prior :=
    List.filter_sublist prior
  have hfid : ∀ e ∈ prior.filter (fun item => item.id != tipId), e.id ≠ tipId := by
    intro e he
    have := List.of_mem_filter he
    simpa using this
  have hnodup2 :
      ((⟨tipId, issue, viewedAt⟩ :: prior.filter (fun item => item.id != tipId)).map
        RecentEntry.id).Nodup := by
    rw [List.map_cons]
    refine List.Nodup.cons ?_ (List.Nodup.sublist (hfsub.map RecentEntry.id) hnodup)
    intro hmem
    obtain ⟨e, he, heid⟩ := List.mem_map.mp hmem
    exact hfid e he heid
  have htake :
      List.Sublist (saveRecentlyViewed prior tipId issue viewedAt)
        (⟨tipId, issue, viewedAt⟩ :: prior.filter (fun item => item.id != tipId)) :=
    List.take_sublist 10 _
  refine ⟨List.length_take_le 10 _, ?_, ?_, ?_⟩
  · exact List.Nodup.sublist (htake.map RecentEntry.id) hnodup2
  · rfl
  · have hhead : (saveRecentlyViewed prior tipId issue viewedAt).head? =
        some ⟨tipId, issue, viewedAt⟩ := rfl
    have hmem : (⟨tipId, issue, viewedAt⟩ : RecentEntry) ∈
        saveRecentlyViewed prior tipId issue viewedAt :=
      List.mem_of_mem_head? (by rw [hhead]; rfl)
    have hidmem : tipId ∈
        ((saveRecentlyViewed prior tipId issue viewedAt).map RecentEntry.id) :=
      List.mem_map.mpr ⟨_, hmem, rfl⟩
    exact List.count_eq_one_of_mem
      (List.Nodup.sublist (htake.map RecentEntry.id) hnodup2) hidmem

/-- Witness for C7: re-viewing id "a" moves it to the front without
duplication, on a concrete two-entry prior list. -/
theorem saveRecentlyViewed_bounded_nodup_front_witness :
    (saveRecentlyViewed [⟨"b", "B", "t0"⟩, ⟨"a", "A", "t1"⟩] "a" "A2" "t2").length
        ≤ 10 ∧
    ((saveRecentlyViewed [⟨"b", "B", "t0"⟩, ⟨"a", "A", "t1"⟩] "a" "A2"
        "t2").map RecentEntry.id).Nodup ∧
    (saveRecentlyViewed [⟨"b", "B", "t0"⟩, ⟨"a", "A", "t1"⟩] "a" "A2"
        "t2").head? = some ⟨"a", "A2", "t2"⟩ ∧
    ((saveRecentlyViewed [⟨"b", "B", "t0"⟩, ⟨"a", "A", "t1"⟩] "a" "A2"
        "t2").map RecentEntry.id).count "a" = 1 :=
  saveRecentlyViewed_bounded_nodup_front [⟨"b", "B", "t0"⟩, ⟨"a", "A", "t1"⟩]
    "a" "A2" "t2" (by decide) (by decide)

example : parseSteps "1. Restart\n2) Check cable\n- Done" =
    ["Restart", "Check cable", "Done"] := by decide

example : parseSteps "" = [] := by decide

example : parseSteps "3)Reboot\n\n  \n* Done" = ["Reboot", "Done"] := by decide

example : parseSteps "1. 2. Restart" = ["2. Restart"] := by decide

example : parseSteps "• x" = ["x"] := by decide

example : parseStepsPart000 "• x" = ["• x"] := by decide

example : parseStepsPart000 "â x" = ["x"] := by decide

example : joinNl ["a", "b"] = "a\nb" := by decide

theorem splitLines_ne_nil : ∀ (cs : List Char), splitLines cs ≠ [] := by
  intro cs
  induction cs with
  | nil => simp [splitLines]
  | cons c t ih =>
    rw [splitLines]
    by_cases hc : c = '\n'
    · simp [hc]
    · rw [if_neg hc]
      rcases h : splitLines t with _ | ⟨l, ls⟩ <;> simp

theorem splitLines_no_newline : ∀ (cs : List Char), ∀ l ∈ splitLines cs,
    '\n' ∉ l := by
  intro cs
  induction cs with
  | nil =>
    intro l hl
    simp only [splitLines, List.mem_singleton] at hl
    subst hl
    simp
  | cons c t ih =>
    intro l hl
    rw [splitLines] at hl
    by_cases hc : c = '\n'
    · rw [if_pos hc] at hl
      rcases List.mem_cons.mp hl with rfl | hl
      · simp
      · exact ih l hl
    · rw [if_neg hc] at hl
      rcases h : splitLines t with _ | ⟨m, ms⟩
      · exact absurd h (splitLines_ne_nil t)
      · rw [h] at hl
        rcases List.mem_cons.mp hl with rfl | hl
        · intro hmem
          rcases List.mem_cons.mp hmem with heq | hmem2
          · exact hc heq.symm
          · exact ih m (by rw [h]; exact List.mem_cons_self m ms) hmem2
        · exact ih l (by rw [h]; exact List.mem_cons_of_mem m hl)

theorem mem_of_mem_dropWhile {α : Type} {p : α → Bool} {a : α} :
    ∀ {l : List α}, a ∈ l.dropWhile p → a ∈ l := by
  intro l
  induction l with
  | nil => intro h; simp at h
  | cons b t ih =>
    intro h
    rw [List.dropWhile_cons] at h
    by_cases hb : p b
    · rw [if_pos hb] at h
      exact List.mem_cons_of_mem b (ih h)
    · rw [if_neg hb] at h
      exact h

theorem mem_of_mem_jsTrim {a : Char} {l : List Char} (h : a ∈ jsTrim l) :
    a ∈ l := by
  rw [jsTrim, List.mem_reverse] at h
  have h2 := mem_of_mem_dropWhile h
  rw [List.mem_reverse] at h2
  exact mem_of_mem_dropWhile h2

theorem mem_of_mem_stripNumMarker {a : Char} {cs : List Char}
    (h : a ∈ stripNumMarker cs) : a ∈ cs := by
  rw [stripNumMarker] at h
  split at h
  · exact h
  · split at h
    next r heq =>
      have h2 : a ∈ '.' :: r := List.mem_cons_of_mem '.' (mem_of_mem_dropWhile h)
      rw [← heq] at h2
      exact mem_of_mem_dropWhile h2
    next r heq =>
      have h2 : a ∈ ')' :: r := List.mem_cons_of_mem ')' (mem_of_mem_dropWhile h)
      rw [← heq] at h2
      exact mem_of_mem_dropWhile h2
    next => exact h

theorem mem_of_mem_stripBulletMarker {a : Char} (bullets : List Char)
    (cs : List Char) (h : a ∈ stripBulletMarker bullets cs) : a ∈ cs := by
  rcases cs with _ | ⟨c, rest⟩
  · simp [stripBulletMarker] at h
  · simp only [stripBulletMarker] at h
    split at h
    · split at h
      next d ds heq =>
        split at h
        · exact List.mem_cons_of_mem c (mem_of_mem_dropWhile h)
        · exact h
      next => exact h
    · exact h

theorem mem_of_mem_cleanStepWith {a : Char} (bullets : List Char)
    (cs : List Char) (h : a ∈ cleanStepWith bullets cs) : a ∈ cs :=
  mem_of_mem_stripNumMarker
    (mem_of_mem_stripBulletMarker bullets _ (mem_of_mem_jsTrim h))

theorem parseStepsCore_mem_shape (bullets : List Char) (s : String) :
    ∀ step ∈ parseStepsCore bullets s, step.data ≠ [] ∧ '\n' ∉ step.data ∧
      ∃ l ∈ splitLines s.data, step = String.mk (cleanStepWith bullets l) := by
  intro step hstep
  rw [parseStepsCore] at hstep
  split at hstep
  · simp at hstep
  · obtain ⟨l', hl', rfl⟩ := List.mem_map.mp hstep
    obtain ⟨hl'mem, hl'len⟩ := List.mem_filter.mp hl'
    obtain ⟨l, hlmem, rfl⟩ := List.mem_map.mp hl'mem
    have hlm := (List.mem_filter.mp hlmem).1
    refine ⟨?_, ?_, l, hlm, rfl⟩
    · intro hnil
      have hnil2 : cleanStepWith bullets l = [] := hnil
      rw [hnil2] at hl'len
      simp at hl'len
    · intro hmem
      exact (splitLines_no_newline s.data l hlm)
        (mem_of_mem_cleanStepWith bullets l hmem)

/-- C9 counterexample: a non-blank multi-line input — a bullet-marker-only
line followed by a whitespace line — on which `parseSteps` returns the empty
list, refuting the claimed guaranteed non-emptiness of the output. -/
theorem parseSteps_empty_output_counterexample : parseSteps "- \n \n" = [] := by
  decide

/-- C9 (amended): for every input, `parseSteps` returns an order-preserving
list — a subsequence of the per-line cleanings of the input's lines — whose
every element is the nonempty cleaning of some input line; the list may
however be empty (e.g. for empty input or lines that are blank or a bare
marker), so the output is not guaranteed non-empty. -/
theorem parseSteps_ordered_clean (s : String) :
    List.Sublist (parseSteps s)
      ((splitLines s.data).map
        (fun l => String.mk (cleanStepWith ['-', '*', '•'] l))) ∧
    ∀ step ∈ parseSteps s, step ≠ "" ∧
      ∃ l ∈ splitLines s.data,
        step = String.mk (cleanStepWith ['-', '*', '•'] l) := by
  constructor
  · rw [parseSteps, parseStepsCore]
    split
    · exact List.nil_sublist _
    · have h1 : List.Sublist
          ((splitLines s.data).filter (fun l => !(jsTrim l).isEmpty))
          (splitLines s.data) := List.filter_sublist _
      have h2 := h1.map (fun l => cleanStepWith ['-', '*', '•'] l)
      have h3 : List.Sublist
          ((((splitLines s.data).filter (fun l => !(jsTrim l).isEmpty)).map
            (fun l => cleanStepWith ['-', '*', '•'] l)).filter
            (fun l => !l.isEmpty))
          (((splitLines s.data).filter (fun l => !(jsTrim l).isEmpty)).map
            (fun l => cleanStepWith ['-', '*', '•'] l)) := List.filter_sublist _
      have h4 := (h3.trans h2).map String.mk
      simpa [List.map_map, Function.comp] using h4
  · intro step hstep
    have hshape := parseStepsCore_mem_shape ['-', '*', '•'] s step hstep
    refine ⟨?_, hshape.2.2⟩
    intro hempty
    apply hshape.1
    rw [hempty]

/-- Witness for C9 at a concrete input: `"a"` is a member of the output of
`parseSteps "1. a\n- b"` and is the nonempty cleaning of an input line. -/
theorem parseSteps_ordered_clean_witness :
    ("a" ∈ parseSteps "1. a\n- b") ∧ ("a" ≠ "" ∧
      ∃ l ∈ splitLines ("1. a\n- b" : String).data,
        "a" = String.mk (cleanStepWith ['-', '*', '•'] l)) :=
  ⟨by decide, (parseSteps_ordered_clean "1. a\n- b").2 "a" (by decide)⟩

/-- C10 counterexample: on the line `• x` the `script.js` copy strips the
bullet but the steps-page copy does not (its character class holds the
mis-decoded bytes of `•`), so the embedded copies are not the same
function. -/
theorem parseSteps_copies_differ_counterexample :
    parseSteps "• x" ≠ parseStepsPart000 "• x" := by decide

/-- C10 (amended): the `script.js` and `steps.js` copies of `parseSteps`
compute the same function, but the steps-page copy computes a different one:
its bullet character class has `â`, `€`, `¢` where the other two have `•`,
and the functions differ at the input `• x`. -/
theorem parseSteps_copies_agreement :
    (∀ s : String, parseSteps s = parseStepsStepsJs s) ∧
    (∃ s : String, parseSteps s ≠ parseStepsPart000 s) :=
  ⟨fun _ => rfl, ⟨"• x", by decide⟩⟩

theorem dropWhile_dropWhile {α : Type} (p : α → Bool) (l : List α) :
    (l.dropWhile p).dropWhile p = l.dropWhile p := by
  induction l with
  | nil => rfl
  | cons a t ih =>
    rw [List.dropWhile_cons]
    by_cases ha : p a
    · rw [if_pos ha]; exact ih
    · rw [if_neg ha, List.dropWhile_cons, if_neg ha]

theorem dropWhile_head_false {α : Type} {p : α → Bool} :
    ∀ {l : List α} {x : α} {xs : List α}, l.dropWhile p = x :: xs →
      p x = false := by
  intro l
  induction l with
  | nil => intro x xs h; simp at h
  | cons a t ih =>
    intro x xs h
    rw [List.dropWhile_cons] at h
    by_cases ha : p a
    · rw [if_pos ha] at h
      exact ih h
    · rw [if_neg ha] at h
      injection h with h1 _
      subst h1
      simpa using ha

theorem jsTrim_idem (l : List Char) : jsTrim (jsTrim l) = jsTrim l := by
  have h1 : (jsTrim l).dropWhile isJsSpace = jsTrim l := by
    rcases hbr : jsTrim l with _ | ⟨x, xs⟩
    · simp
    · obtain ⟨t, hts⟩ := (List.dropWhile_suffix (p := isJsSpace)
        (l := (l.dropWhile isJsSpace).reverse))
      have hae : l.dropWhile isJsSpace = jsTrim l ++ t.reverse := by
        have hcong := congrArg List.reverse hts
        rw [List.reverse_append, List.reverse_reverse] at hcong
        rw [jsTrim]
        exact hcong.symm
      rw [hbr] at hae
      have hx : isJsSpace x = false :=
        dropWhile_head_false (l := l) (by simpa using hae)
      rw [List.dropWhile_cons, if_neg (by simp [hx])]
  have h2 : (jsTrim l).reverse.dropWhile isJsSpace = (jsTrim l).reverse := by
    rw [jsTrim, List.reverse_reverse]
    exact dropWhile_dropWhile _ _
  conv_lhs => rw [jsTrim]
  rw [h1, h2, List.reverse_reverse]

theorem stringData_append (a b : String) : (a ++ b).data = a.data ++ b.data :=
  rfl

theorem stringMk_data (s : String) : String.mk s.data = s := rfl

theorem joinNl_data : ∀ (L : List String),
    (joinNl L).data = joinNlChars (L.map String.data) := by
  intro L
  induction L with
  | nil => rfl
  | cons s rest ih =>
    cases rest with
    | nil => rfl
    | cons s2 rest2 =>
      have h1 : joinNl (s :: s2 :: rest2) = s ++ "\n" ++ joinNl (s2 :: rest2) :=
        rfl
      have h2 : joinNlChars ((s :: s2 :: rest2).map String.data) =
          s.data ++ '\n' :: joinNlChars ((s2 :: rest2).map String.data) := rfl
      rw [h1, h2, stringData_append, stringData_append, ih]
      simp

theorem splitLines_single : ∀ {l : List Char}, '\n' ∉ l → splitLines l = [l] := by
  intro l
  induction l with
  | nil => intro _; rfl
  | cons c t ih =>
    intro h
    have hc : c ≠ '\n' := fun he => h (he ▸ List.mem_cons_self c t)
    rw [splitLines, if_neg hc, ih (fun hm => h (List.mem_cons_of_mem c hm))]

theorem splitLines_append_cons : ∀ {l : List Char}, '\n' ∉ l →
    ∀ (cs : List Char), splitLines (l ++ '\n' :: cs) = l :: splitLines cs := by
  intro l
  induction l with
  | nil =>
    intro _ cs
    rw [List.nil_append, splitLines, if_pos rfl]
  | cons c t ih =>
    intro h cs
    have hc : c ≠ '\n' := fun he => h (he ▸ List.mem_cons_self c t)
    rw [List.cons_append, splitLines, if_neg hc,
      ih (fun hm => h (List.mem_cons_of_mem c hm)) cs]

theorem splitLines_joinNlChars : ∀ (Ls : List (List Char)), Ls ≠ [] →
    (∀ l ∈ Ls, '\n' ∉ l) → splitLines (joinNlChars Ls) = Ls := by
  intro Ls
  induction Ls with
  | nil => intro h; exact absurd rfl h
  | cons l rest ih =>
    intro _ hnl
    cases rest with
    | nil =>
      have hj : joinNlChars [l] = l := rfl
      rw [hj, splitLines_single (hnl l (List.mem_cons_self l []))]
    | cons m rest2 =>
      have hj : joinNlChars (l :: m :: rest2) =
          l ++ '\n' :: joinNlChars (m :: rest2) := rfl
      rw [hj, splitLines_append_cons (hnl l (List.mem_cons_self _ _)),
        ih (by simp) (fun x hx => hnl x (List.mem_cons_of_mem l hx))]

theorem parseStepsCore_joinNl_fixed (bullets : List Char) (L : List String)
    (hne : L ≠ [])
    (hfacts : ∀ st ∈ L, st.data ≠ [] ∧ '\n' ∉ st.data ∧
      jsTrim st.data = st.data ∧ cleanStepWith bullets st.data = st.data) :
    parseStepsCore bullets (joinNl L) = L := by
  have hjoin_ne : (joinNl L).data ≠ [] := by
    rcases L with _ | ⟨st, rest⟩
    · exact absurd rfl hne
    · rw [joinNl_data]
      cases rest with
      | nil => exact (hfacts st (List.mem_cons_self _ _)).1
      | cons m r2 =>
        have hj : joinNlChars ((st :: m :: r2).map String.data) =
            st.data ++ '\n' :: joinNlChars ((m :: r2).map String.data) := rfl
        rw [hj]
        simp
  have hsne : joinNl L ≠ "" := by
    intro he
    apply hjoin_ne
    rw [he]
  have hmapne : L.map String.data ≠ [] := by
    simpa using hne
  have hmapnl : ∀ l ∈ L.map String.data, '\n' ∉ l := by
    intro l hl
    obtain ⟨st, hst, rfl⟩ := List.mem_map.mp hl
    exact (hfacts st hst).2.1
  rw [parseStepsCore, if_neg hsne, joinNl_data,
    splitLines_joinNlChars (L.map String.data) hmapne hmapnl]
  have hfilter1 : (L.map String.data).filter (fun l => !(jsTrim l).isEmpty) =
      L.map String.data := by
    apply List.filter_eq_self.mpr
    intro l hl
    obtain ⟨st, hst, rfl⟩ := List.mem_map.mp hl
    rw [(hfacts st hst).2.2.1]
    simpa using (hfacts st hst).1
  rw [hfilter1]
  have hmapclean : (L.map String.data).map (fun l => cleanStepWith bullets l) =
      L.map String.data := by
    have hcong : ∀ l ∈ L.map String.data,
        cleanStepWith bullets l = id l := by
      intro l hl
      obtain ⟨st, hst, rfl⟩ := List.mem_map.mp hl
      exact (hfacts st hst).2.2.2
    have := List.map_eq_map_iff.mpr hcong
    simpa using this
  rw [hmapclean]
  have hfilter2 : (L.map String.data).filter (fun l => !l.isEmpty) =
      L.map String.data := by
    apply List.filter_eq_self.mpr
    intro l hl
    obtain ⟨st, hst, rfl⟩ := List.mem_map.mp hl
    simpa using (hfacts st hst).1
  rw [hfilter2, List.map_map]
  have : (String.mk ∘ String.data) = (id : String → String) := by
    funext x
    exact stringMk_data x
  rw [this, List.map_id]

/-- C8 counterexample: `parseSteps "1. 2. Restart"` yields `["2. Restart"]`,
but reparsing the joined output strips the remaining numeric marker and
yields `["Restart"]`, so reparsing the output is not the identity for every
input. -/
theorem parseSteps_reparse_counterexample :
    parseSteps (joinNl (parseSteps "1. 2. Restart")) ≠
      parseSteps "1. 2. Restart" := by decide

/-- C8 (amended): `parseSteps` is order-preserving, and on every input whose
output steps are already clean — each output step is fixed by the per-line
cleaning, i.e. it starts with no residual numeric or bullet marker —
reparsing the output (joined back with newlines) returns the step list
unchanged.  (Without that restriction reparse can strip a further marker,
see the counterexample.) -/
theorem parseSteps_idempotent_on_clean (s : String)
    (h : ∀ step ∈ parseSteps s,
      String.mk (cleanStepWith ['-', '*', '•'] step.data) = step) :
    parseSteps (joinNl (parseSteps s)) = parseSteps s := by
  rcases hL : parseSteps s with _ | ⟨st0, rest0⟩
  · decide
  · show parseStepsCore ['-', '*', '•'] (joinNl (st0 :: rest0)) = st0 :: rest0
    apply parseStepsCore_joinNl_fixed ['-', '*', '•'] (st0 :: rest0) (by simp)
    intro st hst
    rw [← hL] at hst
    have h1 := parseStepsCore_mem_shape ['-', '*', '•'] s st hst
    have h2 : cleanStepWith ['-', '*', '•'] st.data = st.data :=
      congrArg String.data (h st hst)
    refine ⟨h1.1, h1.2.1, ?_, h2⟩
    calc jsTrim st.data
        = jsTrim (cleanStepWith ['-', '*', '•'] st.data) := by rw [h2]
      _ = cleanStepWith ['-', '*', '•'] st.data := jsTrim_idem _
      _ = st.data := h2

/-- Witness for C8 at the spec's example input, whose cleaned output
`["Restart", "Check cable", "Done"]` is already clean. -/
theorem parseSteps_idempotent_on_clean_witness :
    parseSteps (joinNl (parseSteps "1. Restart\n2) Check cable\n- Done")) =
      parseSteps "1. Restart\n2) Check cable\n- Done" :=
  parseSteps_idempotent_on_clean "1. Restart\n2) Check cable\n- Done" (by decide)
